import Mathlib

/-!
Verification development for the buildstockbatch core algorithms: the
dependency-ordered conditional sampler (`buildstockbatch/sample.py`) and the
job-partition / resume engine (`buildstockbatch/peregrine.py`).

The Python code is shallowly embedded: pandas DataFrames for the TSV files
become lists of rows, Python dicts become association lists (keys are unique,
as in a dict), floats become rationals, and fallible code returns `Except` /
`Option`.  Functions keep the source names (camel-cased).
-/
namespace BuildStock

/-- One row of a TSV attribute table: the values of its dependency columns (in
column order) and the weights of its option columns (in column order).  In the
source a row is one pandas DataFrame row whose columns are the
`Dependency=...` columns followed by the `Option=...` columns. -/
structure TSVRow where
  deps : List String
  opts : List ℚ
deriving DecidableEq

/-- One TSV attribute table (`tsv_hash[attr]` in the source): the dependency
column attribute names (with the `Dependency=` prefix stripped), the option
names (with the `Option=` prefix stripped), and the data rows. -/
structure TSV where
  depNames : List String
  optNames : List String
  rows : List TSVRow
deriving DecidableEq

/-- The `dependency_hash` built at the top of `_com_order_tsvs`:
attribute name to list of its dependency attribute names. -/
def dependencyHash (tsvHash : List (String × TSV)) : List (String × List String) :=
  tsvHash.map fun p => (p.1, p.2.depNames)

/-- The seeding loop of `_com_order_tsvs` (lines 239-242): every attribute
whose dependency list is truthy (non-empty) is appended to `attr_order`
before the dependency-satisfaction loop runs. -/
def seedOrder (depHash : List (String × List String)) : List String :=
  (depHash.filter fun p => !p.2.isEmpty).map Prod.fst

/-- One pass of the while-loop body of `_com_order_tsvs` (lines 245-253):
scan the attributes in mapping order; skip those already ordered; append any
attribute whose dependencies are all already in the evolving order. -/
def orderPass : List (String × List String) → List String → List String
  | [], ord => ord
  | p :: rest, ord =>
    if p.1 ∈ ord then orderPass rest ord
    else if p.2.all fun d => decide (d ∈ ord) then orderPass rest (ord ++ [p.1])
    else orderPass rest ord

/-- The bounded while-loop of `_com_order_tsvs` (lines 243-259): run passes
until every key is ordered, decrementing `max_iterations` (initially 5) after
each unsuccessful pass, and raise once the budget is exhausted. -/
def orderLoop (depHash : List (String × List String)) :
    Nat → List String → Except String (List String)
  | fuel, ord =>
    let ord2 := orderPass depHash ord
    if depHash.length = ord2.length then Except.ok ord2
    else
      match fuel with
      | 0 => Except.error "Unable to resolve the dependency tree within the set iteration limit"
      | f + 1 => orderLoop depHash f ord2

/-- `CommercialSobolSampler._com_order_tsvs` (sample.py lines 227-260):
build the dependency hash, seed the order, run the bounded fixed-point loop,
and return both. -/
def comOrderTsvs (tsvHash : List (String × TSV)) :
    Except String (List (String × List String) × List String) :=
  let depHash := dependencyHash tsvHash
  (orderLoop depHash 5 (seedOrder depHash)).map fun o => (depHash, o)

/-! Concrete inputs exhibiting the seeding slip. -/
/-- Failing input for C1: attribute `A` depends on `B`; `B` has no
dependencies. -/
def c1Input : List (String × TSV) :=
  [("A", ⟨["B"], ["x"], []⟩), ("B", ⟨[], ["y"], []⟩)]

/-- Cyclic input for C2: `A` depends on `B` and `B` depends on `A`. -/
def c2Input : List (String × TSV) :=
  [("A", ⟨["B"], ["x"], []⟩), ("B", ⟨["A"], ["y"], []⟩)]

/-! Embedding of `_com_execute_sample` (sample.py lines 262-307). -/
/-- A value of `sample_dependency_hash`: initially the deep-copied dependency
list of the attribute, overwritten with the chosen option string once the
attribute is resolved (line 296).  An unresolved entry is a Python list, a
resolved one a string. -/
inductive CtxVal
  | deps (l : List String)
  | chosen (v : String)
deriving DecidableEq

/-- A dependency-assignment context (`sample_dependency_hash`). -/
abbrev Ctx := List (String × CtxVal)

/-- The initial `sample_dependency_hash = deepcopy(dependency_hash)`. -/
def initCtx (depHash : List (String × List String)) : Ctx :=
  depHash.map fun p => (p.1, CtxVal.deps p.2)

/-- The pandas equality test of a dependency cell against
`sample_dependency_hash[dependency]` (line 284-285): a string cell equals a
resolved (string) context value iff the strings are equal, and never equals an
unresolved (list) context value. -/
def ctxCellEq (c : CtxVal) (cell : String) : Bool :=
  match c with
  | CtxVal.chosen v => cell == v
  | CtxVal.deps _ => false

/-- Overwriting `sample_dependency_hash[attr]` with the chosen option
(line 296); every attribute is already a key of the context. -/
def ctxSet (ctx : Ctx) (a : String) (v : CtxVal) : Ctx :=
  ctx.map fun p => if p.1 = a then (p.1, v) else p

/-- The dependency-filtering loop (lines 283-286): for each dependency column
of the attribute's table in column order, look up its context value (a missing
key raises, as `sample_dependency_hash[dependency]` would) and keep the rows
whose cell in that column equals it.  The index `i` tracks the position of the
dependency column inside each row. -/
def filterLoop (ctx : Ctx) : List String → Nat → List TSVRow →
    Except String (List TSVRow)
  | [], _, rows => Except.ok rows
  | d :: rest, i, rows =>
    match ctx.lookup d with
    | none => Except.error d
    | some c => filterLoop ctx rest (i + 1)
        (rows.filter fun r => ctxCellEq c (r.deps.getD i ""))

/-- Filter an attribute's table rows against the context. -/
def filterTable (ctx : Ctx) (t : TSV) : Except String (List TSVRow) :=
  filterLoop ctx t.depNames 0 t.rows

/-- Running cumulative sums (`tsv_lkup.values.cumsum()`, line 293). -/
def cumsumFrom (acc : ℚ) : List ℚ → List ℚ
  | [] => []
  | x :: xs => (acc + x) :: cumsumFrom (acc + x) xs

/-- Cumulative sums of a weight row. -/
def cumsums (l : List ℚ) : List ℚ := cumsumFrom 0 l

/-- Lines 293-295: `tsv_lkup_cdf = tsv_lkup.values.cumsum() > tsv_dist_val`
followed by `list(compress(option_values, tsv_lkup_cdf))[0]` — pair the
option names with the mask elementwise (as `compress` does) and take the head
of the survivors; `none` models the unguarded `[0]` raising `IndexError`. -/
def selectOption (optNames : List String) (opts : List ℚ) (x : ℚ) : Option String :=
  (((optNames.zip (cumsums opts)).filter fun p => decide (x < p.2)).map Prod.fst).head?

/-- Outcome of `_com_execute_sample` for one sample index. -/
inductive SampleResult
  | accepted (line : List String)
  | rejected (attr : String) (sampleIndex : Nat) (ctx : Ctx)
  | fatalNonUnique (attr : String) (sampleIndex : Nat)
  | fatalIndexErr (attr : String) (sampleIndex : Nat)
  | fatalKeyErr (attr : String)
deriving DecidableEq

/-- The attribute walk of `_com_execute_sample` (lines 279-301): the list
pairs each attribute of `attr_order` with its sample-vector coordinate; `acc`
is the `result_vector` built so far.  A zero-row filter warns and returns
without output (lines 287-290, modelled as `rejected` carrying the warning's
attribute, sample index, and context); a more-than-one-row filter raises
(lines 291-292); otherwise the first option whose cumulative weight exceeds
the coordinate is chosen, recorded in the context and the result vector. -/
def comExecuteSampleLoop (tsvHash : List (String × TSV)) (sampleIndex : Nat) :
    List (String × ℚ) → Ctx → List String → SampleResult
  | [], _, acc => SampleResult.accepted (toString (sampleIndex + 1) :: acc)
  | (attr, x) :: rest, ctx, acc =>
    match tsvHash.lookup attr with
    | none => SampleResult.fatalKeyErr attr
    | some t =>
      match filterTable ctx t with
      | Except.error d => SampleResult.fatalKeyErr d
      | Except.ok [] => SampleResult.rejected attr sampleIndex ctx
      | Except.ok [r] =>
        match selectOption t.optNames r.opts x with
        | none => SampleResult.fatalIndexErr attr sampleIndex
        | some v => comExecuteSampleLoop tsvHash sampleIndex rest
            (ctxSet ctx attr (CtxVal.chosen v)) (acc ++ [v])
      | Except.ok _ => SampleResult.fatalNonUnique attr sampleIndex

/-- `CommercialSobolSampler._com_execute_sample`: evaluate one sample vector
against the TSV set, producing either a CSV line (`accepted`, the 1-based
sample index followed by the chosen options in attribute order), a silent
rejection, or a fatal error. -/
def comExecuteSample (tsvHash : List (String × TSV))
    (depHash : List (String × List String)) (attrOrder : List String)
    (sampleVector : List ℚ) (sampleIndex : Nat) : SampleResult :=
  comExecuteSampleLoop tsvHash sampleIndex (attrOrder.zip sampleVector)
    (initCtx depHash) []

/-- Column `k` of the sample matrix (`sample_matrix.loc[:, sample_index]`,
line 276): one coordinate per attribute dimension. -/
def colOf (matrix : List (List ℚ)) (k : Nat) : List ℚ :=
  matrix.map fun row => row.getD k 0

/-- The sampling run over a list of sample indices (the `Parallel` loop of
`run_sampling`, lines 208-212, sequentialized): rejected samples produce no
row, accepted rows are collected, and a fatal error in any sample aborts the
whole run. -/
def runList (tsvHash : List (String × TSV)) (depHash : List (String × List String))
    (attrOrder : List String) (matrix : List (List ℚ)) :
    List Nat → Except SampleResult (List (List String))
  | [] => Except.ok []
  | k :: ks =>
    match comExecuteSample tsvHash depHash attrOrder (colOf matrix k) k with
    | SampleResult.accepted line =>
      (runList tsvHash depHash attrOrder matrix ks).map fun rows => line :: rows
    | SampleResult.rejected _ _ _ => runList tsvHash depHash attrOrder matrix ks
    | r => Except.error r

/-- The whole sampling run over `n_samples` sample indices. -/
def runSamples (tsvHash : List (String × TSV)) (depHash : List (String × List String))
    (attrOrder : List String) (matrix : List (List ℚ)) (n : Nat) :
    Except SampleResult (List (List String)) :=
  runList tsvHash depHash attrOrder matrix (List.range n)

/-- Modelled from the spec (§4.2 step 4): the index of the first cumulative
value strictly exceeding the sample coordinate. -/
def firstExceedingIdx (x : ℚ) : List ℚ → Option Nat
  | [] => none
  | w :: ws => if x < w then some 0 else (firstExceedingIdx x ws).map (· + 1)

/-- Modelled from the spec (§4.2 step 4): "select the first option whose
cumulative value exceeds the sample point's coordinate", with the option
columns carrying the weights in column order. -/
def firstExceeding (ns : List String) (os : List ℚ) (x : ℚ) : Option String :=
  (firstExceedingIdx x (cumsums os)).bind fun j => ns.get? j

/-- Modelled from the spec (§4.2 per-sample resolution, all-unique case):
walk the attribute order; at each attribute the dependency-filtered table must
reduce to exactly one row, the first option whose cumulative weight exceeds
the coordinate is chosen and recorded in the context, and the list of chosen
options is returned. -/
def specResolve (tsvHash : List (String × TSV)) :
    List (String × ℚ) → Ctx → Option (List String)
  | [], _ => some []
  | (attr, x) :: rest, ctx =>
    match tsvHash.lookup attr with
    | none => none
    | some t =>
      match filterTable ctx t with
      | Except.ok [r] =>
        match firstExceeding t.optNames r.opts x with
        | none => none
        | some v =>
          (specResolve tsvHash rest (ctxSet ctx attr (CtxVal.chosen v))).map
            fun vs => v :: vs
      | _ => none

/-! Concrete sampling inputs used by the witnesses. -/
/-- A one-attribute dependency hash: `A` with no dependencies. -/
def exDepA : List (String × List String) := [("A", [])]

/-- A table for `A` with one row and options `x`, `y` of weight 1 each. -/
def uniqTable : TSV := ⟨[], ["x", "y"], [⟨[], [1, 1]⟩]⟩

/-- TSV hash containing only `uniqTable`. -/
def uniqHash : List (String × TSV) := [("A", uniqTable)]

/-- A table for `A` with no rows at all: every filter yields zero rows. -/
def rejTable : TSV := ⟨[], ["x"], []⟩

/-- TSV hash containing only `rejTable`. -/
def rejHash : List (String × TSV) := [("A", rejTable)]

/-- A table for `A` with a duplicated row: every filter yields two rows. -/
def dupTable : TSV := ⟨[], ["x"], [⟨[], [1]⟩, ⟨[], [1]⟩]⟩

/-- TSV hash containing only `dupTable`. -/
def dupHash : List (String × TSV) := [("A", dupTable)]

/-- A table for `A` with one row and a single option of weight 1, so a sample
coordinate of 5 exceeds every cumulative weight. -/
def oneTable : TSV := ⟨[], ["x"], [⟨[], [1]⟩]⟩

/-- TSV hash containing only `oneTable`. -/
def oneHash : List (String × TSV) := [("A", oneTable)]

/-! Embedding of `PeregrineBatch.run_batch` (peregrine.py lines 196-229). -/
/-- A simulation unit: `(building index, upgrade index or None)`. -/
abbrev Sim := Nat × Option Nat

/-- `math.ceil(n_sims / n_jobs)` on naturals. -/
def ceilDiv (a b : Nat) : Nat := (a + b - 1) / b

/-- Lines 201-207: `n_sims = n_datapoints * (len(upgrades) + 1)`,
`n_sims_per_job = max(ceil(n_sims / n_jobs), 48)`. -/
def nSimsPerJob (n_datapoints n_upgrades n_jobs : Nat) : Nat :=
  max (ceilDiv (n_datapoints * (n_upgrades + 1)) n_jobs) 48

/-- `baseline_sims = zip(range(1, n_datapoints + 1), repeat(None))` (line 209). -/
def baselineSims (n : Nat) : List Sim := (List.range' 1 n).map fun i => (i, none)

/-- `upgrade_sims = product(range(1, n_datapoints + 1), range(len(upgrades)))`
(line 210). -/
def upgradeSims (n u : Nat) : List Sim :=
  ((List.range' 1 n).product (List.range u)).map fun p => (p.1, some p.2)

/-- `all_sims = list(chain(baseline_sims, upgrade_sims))` (line 211), before
the shuffle. -/
def allSims (n u : Nat) : List Sim := baselineSims n ++ upgradeSims n u

/-- The `islice` loop of lines 215-218: cut a list into contiguous chunks of
`s` elements (the last chunk may be shorter).  The fuel argument only drives
the recursion; `chunksOf` supplies `l.length`, which always suffices. -/
def chunksOfAux (s : Nat) : Nat → List Sim → List (List Sim)
  | _, [] => []
  | 0, _ :: _ => []
  | fuel + 1, x :: xs => (x :: xs.take (s - 1)) :: chunksOfAux s fuel (xs.drop (s - 1))

/-- Contiguous chunks of `s` elements. -/
def chunksOf (s : Nat) (l : List Sim) : List (List Sim) := chunksOfAux s l.length l

/-- The job descriptors written by `run_batch` (lines 215-225): 1-based
contiguous job numbers paired with their unit batches, over the shuffled
workload. -/
def runBatchJobs (n u n_jobs : Nat) (shuffled : List Sim) : List (Nat × List Sim) :=
  List.enumFrom 1 (chunksOf (nSimsPerJob n u n_jobs) shuffled)

/-! Embedding of `PeregrineBatch.run_building` (peregrine.py lines 289-304). -/
/-- The contents of one unit's simulation directory: whether the
`run/finished.job` and `run/failed.job` markers exist, plus the remaining
files (abstract). -/
structure SimDir where
  finishedJob : Bool
  failedJob : Bool
  files : List String
deriving DecidableEq

/-- The skip/redo control flow of `run_building` (lines 293-304): if the
directory exists and holds a finished or failed marker, return immediately
without running; otherwise remove any stale directory, recreate it and run
the simulation from scratch.  `fresh` is the directory produced by a full
simulation run (the external executor's output); the returned boolean records
whether the simulation was executed. -/
def run_building (cur : Option SimDir) (fresh : SimDir) : Option SimDir × Bool :=
  match cur with
  | some d =>
    if d.finishedJob then (some d, false)
    else if d.failedJob then (some d, false)
    else (some fresh, true)
  | none => (some fresh, true)

/-! Embedding of `_com_execute_sobol_sampling` (sample.py lines 215-225). -/
/-- Modelled from the spec: `i4_sobol_generate` lives in
`buildstockbatch/sobol_lib.py`, which is not among the provided sources.  Per
§4.2 of the spec it produces an `n_dims x n_samples` low-discrepancy point
set over the unit hyper-cube, a deterministic pure function of
`(n_dims, n_samples, skip)` with every coordinate in the closed unit
interval (the upper bound is attainable, which is why the caller clamps). -/
def i4_sobol_generate (n_dims n_samples skip : Nat) : List (List ℚ) :=
  (List.range n_dims).map fun i =>
    (List.range n_samples).map fun j => (((i + 2 * j + skip) % 5 : Nat) : ℚ) / 4

/-- The elementwise `.replace(1.0, 0.999999)` of line 225. -/
def clampUnit (x : ℚ) : ℚ := if x = 1 then 999999 / 1000000 else x

/-- `_com_execute_sobol_sampling` (lines 215-225): generate the sobol matrix
with skip 0 and clamp coordinates equal to 1 strictly below 1. -/
def comExecuteSobolSampling (n_dims n_samples : Nat) : List (List ℚ) :=
  (i4_sobol_generate n_dims n_samples 0).map fun row => row.map clampUnit

/-! Embedding of `PeregrineBatch.pick_up_where_left_off` (peregrine.py lines
231-267).  Filenames and file text are lists of characters; a directory is an
association list of filename to content.  Filenames in a directory listing
are unique, so reading a file during the scan sees the snapshot content. -/
/-- A filename or a chunk of file text. -/
abbrev FName := List Char

/-- File contents: raw text for log artifacts, or a decoded job descriptor
(`{"job_num": ..., "batch": [...]}`) for the JSON files written by
`run_batch`; the `json` stdlib module is the external encoder/decoder. -/
inductive FileContent
  | text (s : FName)
  | jobJson (jobNum : Nat) (batch : List Sim)
deriving DecidableEq

/-- Raw text of a file as the log branch reads it.  A decoded job descriptor
is rendered as empty text: descriptor files are never named like log
artifacts and their JSON text never contains the PBS kill message. -/
def readText : FileContent → FName
  | FileContent.text s => s
  | FileContent.jobJson _ _ => []

/-- `len(job_d['batch'])` after `json.load`: fails (`None`) on non-JSON
text, as `json.load` would raise. -/
def batchLen : FileContent → Option Nat
  | FileContent.jobJson _ b => some b.length
  | FileContent.text _ => none

/-- An output directory listing. -/
abbrev Dir := List (FName × FileContent)

/-- The captured group of `job.out-(\d+)` as an integer. -/
def digitsToNat (ds : FName) : Nat :=
  ds.foldl (fun n c => n * 10 + (c.toNat - 48)) 0

/-- `re.match(r'job.out-(\d+)$', filename)` (line 235): anchored at the
start, `.` matches any single character, and the digit group must run to the
end of the name. -/
def matchJobOut (n : FName) : Option Nat :=
  match n with
  | c1 :: c2 :: c3 :: _ :: c5 :: c6 :: c7 :: c8 :: rest =>
    if c1 = 'j' ∧ c2 = 'o' ∧ c3 = 'b' ∧ c5 = 'o' ∧ c6 = 'u' ∧ c7 = 't' ∧
        c8 = '-' ∧ rest ≠ [] ∧ rest.all Char.isDigit then
      some (digitsToNat rest) else none
  | _ => none

/-- Whether a name starts with the literal `json`. -/
def startsWithJson : FName → Bool
  | 'j' :: 's' :: 'o' :: 'n' :: _ => true
  | _ => false

/-- Scanning state for `re.match(r'job(\d+).json', filename)` after at least
one digit has been consumed: succeed if the current position is any single
character followed by `json`, or consume one more digit and continue. -/
def jsonScan : FName → Bool
  | [] => false
  | c :: rest => startsWithJson rest || (c.isDigit && jsonScan rest)

/-- `re.match(r'job(\d+).json', filename)` (line 248): anchored at the start
only; `.` matches any single character. -/
def matchJobJson : FName → Bool
  | 'j' :: 'o' :: 'b' :: d :: rest => d.isDigit && jsonScan rest
  | _ => false

/-- Drop a literal pattern from the head of a text, or fail. -/
def stripLit : FName → FName → Option FName
  | [], s => some s
  | _ :: _, [] => none
  | c :: cs, d :: ds => if c = d then stripLit cs ds else none

/-- Split a maximal digit run off the head of a text. -/
def splitDigits : FName → FName × FName
  | [] => ([], [])
  | c :: rest =>
    if c.isDigit then
      match splitDigits rest with
      | (ds, r) => (c :: ds, r)
    else ([], c :: rest)

/-- Match `PBS: job killed: walltime \d+ exceeded limit \d+` at the head of
the text; the maximal digit runs are correct here because each `\d+` is
followed by a non-digit literal. -/
def killAt (s : FName) : Bool :=
  match stripLit ("PBS: job killed: walltime ".toList) s with
  | none => false
  | some s1 =>
    match splitDigits s1 with
    | (ds1, s2) =>
      if ds1.isEmpty then false
      else
        match stripLit (" exceeded limit ".toList) s2 with
        | none => false
        | some s3 => !(splitDigits s3).1.isEmpty

/-- `re.search` of the walltime-kill pattern (line 241): try every position. -/
def hasWalltimeKill : FName → Bool
  | [] => false
  | c :: rest => killAt (c :: rest) || hasWalltimeKill rest

/-- Name of the archive file (`logfile_path + '.bak'`, line 243). -/
def bakName (n : FName) : FName := n ++ ".bak".toList

/-- `os.remove(logfile_path)` (line 246). -/
def removeFile (d : Dir) (n : FName) : Dir :=
  d.filter fun e => decide (e.1 ≠ n)

/-- Lines 243-245: `open(logfile_path + '.bak', 'a')`, write a newline and
then the log contents — append to the archive if it exists, create it
otherwise. -/
def appendBak (d : Dir) (n : FName) (contents : FName) : Dir :=
  if d.any fun e => e.1 == bakName n then
    d.map fun e =>
      if e.1 == bakName n then
        (e.1, FileContent.text (readText e.2 ++ '\n' :: contents))
      else e
  else d ++ [(bakName n, FileContent.text ('\n' :: contents))]

/-- State of the scan loop of `pick_up_where_left_off`. -/
structure ScanSt where
  restarts : List Nat
  nSims : Nat
  dir : Dir
deriving DecidableEq

/-- The `for filename in os.listdir(self.output_dir)` loop (lines 234-252):
a log artifact whose contents show the walltime kill is marked for restart
and archived; a job descriptor contributes its batch length to the running
units-per-job maximum (a non-JSON descriptor aborts, as `json.load` would);
anything else is ignored. -/
def scanGo : List (FName × FileContent) → ScanSt → Option ScanSt
  | [], st => some st
  | (n, c) :: rest, st =>
    match matchJobOut n with
    | some arrayId =>
      if hasWalltimeKill (readText c) then
        scanGo rest
          { restarts := st.restarts ++ [arrayId]
            nSims := st.nSims
            dir := appendBak (removeFile st.dir n) n (readText c) }
      else scanGo rest st
    | none =>
      if matchJobJson n then
        match batchLen c with
        | some len => scanGo rest { st with nSims := max len st.nSims }
        | none => none
      else scanGo rest st

/-- The scan phase of `pick_up_where_left_off`: run the listing loop over the
directory and sort the restart set ascending (`jobs_to_restart.sort()`,
line 253). -/
def pickUpScan (d : Dir) : Option ScanSt :=
  (scanGo d { restarts := [], nSims := 0, dir := d }).map fun st =>
    { st with restarts := List.insertionSort (fun a b => a ≤ b) st.restarts }

/-- A submission handed to the external scheduler. -/
inductive Submission
  | jobArray (nSims : Nat) (arraySpec : FName)
  | postAfter (jobId : FName)
deriving DecidableEq

/-- `','.join(map(str, jobs_to_restart))` (line 261). -/
def commaJoin (xs : List FName) : FName := List.intercalate [','] xs

/-- Decimal rendering of a task number. -/
def natChars (k : Nat) : FName := (toString k).toList

/-- Lines 255-267: submit the restart job array (comma-joined sorted task
list, recovered units-per-job) and then the post-processing job dependent on
the job id the scheduler returned for the array. -/
def pickUpCalls (d : Dir) (schedulerJobId : FName) : Option (List Submission) :=
  (pickUpScan d).map fun st =>
    [Submission.jobArray st.nSims (commaJoin (st.restarts.map natChars)),
     Submission.postAfter schedulerJobId]

/-- The restart set an entry listing contributes (specification-side view of
the scan's restart accumulation). -/
def restartsOf (entries : List (FName × FileContent)) : List Nat :=
  entries.filterMap fun e =>
    match matchJobOut e.1 with
    | some arrayId =>
      if hasWalltimeKill (readText e.2) then some arrayId else none
    | none => none

/-- The units-per-job maximum an entry listing contributes (specification-side
view of the scan's `n_sims_per_job` recovery). -/
def maxBatchLen (entries : List (FName × FileContent)) : Nat :=
  (entries.filterMap fun e =>
    match matchJobOut e.1 with
    | some _ => none
    | none => if matchJobJson e.1 then batchLen e.2 else none).foldr max 0

/-! Concrete directory for the resume-scan witnesses. -/
/-- A log artifact name, `job.out-3`. -/
def logName : FName := "job.out-3".toList

/-- Log contents containing the walltime-kill signature. -/
def killLog : FName := "PBS: job killed: walltime 100 exceeded limit 60".toList

/-- A job descriptor name, `job001.json`. -/
def jsonFileName : FName := "job001.json".toList

/-- A directory with one timed-out log and one job descriptor. -/
def dEx : Dir :=
  [(logName, FileContent.text killLog),
   (jsonFileName, FileContent.jobJson 1 [(1, none)])]

/-- The scan state reached from `dEx`: task 3 restarted, units-per-job 1,
log archived. -/
def stEx : ScanSt :=
  { restarts := [3]
    nSims := 1
    dir := [(jsonFileName, FileContent.jobJson 1 [(1, none)]),
            (bakName logName, FileContent.text ('\n' :: killLog))] }

/-! Helper lemmas about `orderPass`. -/
theorem orderPass_subset_right (dh : List (String × List String)) :
    ∀ ord : List String, ∀ a ∈ ord, a ∈ orderPass dh ord := by
  induction dh with
  | nil => intro ord a ha; simpa [orderPass] using ha
  | cons p rest ih =>
    intro ord a ha
    simp only [orderPass]
    split
    · exact ih ord a ha
    · split
      · exact ih (ord ++ [p.1]) a (List.mem_append_left _ ha)
      · exact ih ord a ha

theorem mem_of_mem_orderPass (dh : List (String × List String)) :
    ∀ ord : List String, ∀ a ∈ orderPass dh ord,
      a ∈ ord ∨ a ∈ dh.map Prod.fst := by
  induction dh with
  | nil => intro ord a ha; exact Or.inl (by simpa [orderPass] using ha)
  | cons p rest ih =>
    intro ord a ha
    simp only [orderPass] at ha
    split at ha
    · rcases ih ord a ha with h | h
      · exact Or.inl h
      · exact Or.inr (by simp [h])
    · split at ha
      · rcases ih (ord ++ [p.1]) a ha with h | h
        · rcases List.mem_append.mp h with h | h
          · exact Or.inl h
          · exact Or.inr (by simp at h; simp [h])
        · exact Or.inr (by simp [h])
      · rcases ih ord a ha with h | h
        · exact Or.inl h
        · exact Or.inr (by simp [h])

theorem nodup_orderPass (dh : List (String × List String)) :
    ∀ ord : List String, ord.Nodup → (orderPass dh ord).Nodup := by
  induction dh with
  | nil => intro ord h; simpa [orderPass] using h
  | cons p rest ih =>
    intro ord h
    simp only [orderPass]
    split
    · exact ih ord h
    · split
      · refine ih (ord ++ [p.1]) ?_
        refine List.Nodup.append h (List.nodup_singleton _) ?_
        intro a ha hb
        simp at hb
        subst hb
        exact ‹¬ p.1 ∈ ord› ha
      · exact ih ord h

theorem keys_subset_orderPass (dh : List (String × List String)) :
    ∀ ord : List String,
      (∀ q ∈ dh, q.2 ≠ [] → q.1 ∈ ord) →
      ∀ q ∈ dh, q.1 ∈ orderPass dh ord := by
  induction dh with
  | nil => intro ord _ q hq; exact absurd hq (List.not_mem_nil _)
  | cons p rest ih =>
    intro ord hseed q hq
    simp only [orderPass]
    rcases List.mem_cons.mp hq with rfl | hq'
    · by_cases hmem : q.1 ∈ ord
      · simp only [hmem, if_true]
        exact orderPass_subset_right rest ord q.1 hmem
      · rcases List.eq_nil_or_concat q.2 with hnil | _
        · simp only [hmem, if_false, hnil]
          simp only [List.all_nil, if_true]
          exact orderPass_subset_right rest (ord ++ [q.1]) q.1 (by simp)
        · exact absurd (hseed q (by simp) (by simp_all)) hmem
    · split
      · exact ih ord (fun r hr hne => hseed r (by simp [hr]) hne) q hq'
      · split
        · refine ih (ord ++ [p.1]) ?_ q hq'
          intro r hr hne
          exact List.mem_append_left _ (hseed r (by simp [hr]) hne)
        · exact ih ord (fun r hr hne => hseed r (by simp [hr]) hne) q hq'

theorem seedOrder_sound (dh : List (String × List String)) :
    ∀ q ∈ dh, q.2 ≠ [] → q.1 ∈ seedOrder dh := by
  intro q hq hne
  simp only [seedOrder, List.mem_map]
  refine ⟨q, ?_, rfl⟩
  simp only [List.mem_filter, Bool.not_eq_true']
  exact ⟨hq, by simpa [List.isEmpty_iff] using hne⟩

theorem seedOrder_subset_keys (dh : List (String × List String)) :
    ∀ a ∈ seedOrder dh, a ∈ dh.map Prod.fst := by
  intro a ha
  simp only [seedOrder, List.mem_map] at ha
  rcases ha with ⟨q, hq, rfl⟩
  exact List.mem_map_of_mem Prod.fst (List.mem_of_mem_filter hq)

theorem nodup_seedOrder (dh : List (String × List String))
    (h : (dh.map Prod.fst).Nodup) : (seedOrder dh).Nodup := by
  have hsub : List.Sublist (seedOrder dh) (dh.map Prod.fst) :=
    List.Sublist.map Prod.fst (List.filter_sublist dh)
  exact h.sublist hsub

/-- With the source's seeding, one pass already orders every key: the first
length check of the while-loop succeeds and the loop can never raise. -/
theorem orderPass_seed_length (dh : List (String × List String))
    (h : (dh.map Prod.fst).Nodup) :
    (orderPass dh (seedOrder dh)).length = dh.length := by
  set ord2 := orderPass dh (seedOrder dh) with hord2
  have hsub1 : ∀ a ∈ ord2, a ∈ dh.map Prod.fst := by
    intro a ha
    rcases mem_of_mem_orderPass dh (seedOrder dh) a ha with h' | h'
    · exact seedOrder_subset_keys dh a h'
    · exact h'
  have hsub2 : ∀ a ∈ dh.map Prod.fst, a ∈ ord2 := by
    intro a ha
    rcases List.mem_map.mp ha with ⟨q, hq, rfl⟩
    exact keys_subset_orderPass dh (seedOrder dh) (seedOrder_sound dh) q hq
  have hnd : ord2.Nodup := nodup_orderPass dh (seedOrder dh) (nodup_seedOrder dh h)
  have hle1 : ord2.length ≤ (dh.map Prod.fst).length :=
    (List.subperm_of_subset hnd hsub1).length_le
  have hle2 : (dh.map Prod.fst).length ≤ ord2.length :=
    (List.subperm_of_subset h hsub2).length_le
  have := Nat.le_antisymm hle1 hle2
  simpa using this

theorem comOrderTsvs_never_errors (tsvHash : List (String × TSV))
    (h : (tsvHash.map Prod.fst).Nodup) :
    ∃ r, comOrderTsvs tsvHash = Except.ok r := by
  have hkeys : ((dependencyHash tsvHash).map Prod.fst).Nodup := by
    have : (dependencyHash tsvHash).map Prod.fst = tsvHash.map Prod.fst := by
      simp [dependencyHash]
    rwa [this]
  have hlen := orderPass_seed_length (dependencyHash tsvHash) hkeys
  refine ⟨(dependencyHash tsvHash, orderPass (dependencyHash tsvHash)
    (seedOrder (dependencyHash tsvHash))), ?_⟩
  simp [comOrderTsvs, orderLoop, hlen.symm, Except.map]

/-- C1 (code_bug): `_com_order_tsvs` seeds `attr_order` with the attributes
that HAVE dependencies (line 241: `if dependency_hash[attr]`), so on the
acyclic mapping `A -> [B]`, `B -> []` it returns the order `["A", "B"]`, in
which `A` comes strictly BEFORE its dependency `B` — contradicting the claim
(and the method's own docstring) that every attribute appears strictly after
all attributes it depends on. -/
theorem comOrderTsvs_c1_violation :
    comOrderTsvs c1Input = Except.ok ([("A", ["B"]), ("B", [])], ["A", "B"]) ∧
    [("A", ["B"]), ("B", [])].lookup "A" = some ["B"] ∧
    List.indexOf "A" ["A", "B"] < List.indexOf "B" ["A", "B"] := by
  refine ⟨by rfl, by rfl, by decide⟩

/-- C2 (code_bug): on the cyclic mapping `A -> [B]`, `B -> [A]`,
`_com_order_tsvs` terminates successfully with the order `["A", "B"]` instead
of raising the dependency-cycle error; indeed, because the seeding loop
pre-inserts every attribute that has dependencies and the first pass adds the
dependency-free ones, the function never raises for any mapping with distinct
keys. -/
theorem comOrderTsvs_c2_no_error :
    comOrderTsvs c2Input = Except.ok ([("A", ["B"]), ("B", ["A"])], ["A", "B"]) ∧
    ∀ th : List (String × TSV), (th.map Prod.fst).Nodup →
      ∃ r, comOrderTsvs th = Except.ok r := by
  exact ⟨by rfl, fun th h => comOrderTsvs_never_errors th h⟩

/-- Witness for C2's theorem: the universally quantified part applied at the
concrete cyclic input. -/
theorem comOrderTsvs_c2_no_error_witness :
    ∃ r, comOrderTsvs c2Input = Except.ok r :=
  comOrderTsvs_c2_no_error.2 c2Input (by decide)

/-! Characterization of the option selection. -/
theorem head_filter_split {α : Type _} (p : α → Bool) :
    ∀ (l : List α) (a : α), (l.filter p).head? = some a ↔
      ∃ l1 l2, l = l1 ++ a :: l2 ∧ p a = true ∧ ∀ b ∈ l1, p b = false := by
  intro l
  induction l with
  | nil => intro a; simp
  | cons x xs ih =>
    intro a
    rw [List.filter_cons]
    by_cases hx : p x = true
    · rw [if_pos hx]
      simp only [List.head?_cons, Option.some_inj]
      constructor
      · rintro rfl
        exact ⟨[], xs, rfl, hx, by simp⟩
      · rintro ⟨l1, l2, heq, hpa, hall⟩
        cases l1 with
        | nil =>
          simp only [List.nil_append, List.cons.injEq] at heq
          exact heq.1
        | cons y ys =>
          simp only [List.cons_append, List.cons.injEq] at heq
          have hy : p y = false := hall y (by simp)
          rw [heq.1] at hx
          simp [hx] at hy
    · rw [if_neg hx]
      rw [ih a]
      constructor
      · rintro ⟨l1, l2, heq, hpa, hall⟩
        refine ⟨x :: l1, l2, by simp [heq], hpa, ?_⟩
        intro b hb
        rcases List.mem_cons.mp hb with rfl | hb'
        · simpa using hx
        · exact hall b hb'
      · rintro ⟨l1, l2, heq, hpa, hall⟩
        cases l1 with
        | nil =>
          simp only [List.nil_append, List.cons.injEq] at heq
          rw [← heq.1] at hpa
          exact absurd hpa (by simpa using hx)
        | cons y ys =>
          simp only [List.cons_append, List.cons.injEq] at heq
          exact ⟨ys, l2, heq.2, hpa, fun b hb => hall b (by simp [hb])⟩

theorem selectOption_some_iff (ns : List String) (os : List ℚ) (x : ℚ) (v : String) :
    selectOption ns os x = some v ↔
      ∃ pre w post, ns.zip (cumsums os) = pre ++ (v, w) :: post ∧ x < w ∧
        ∀ q ∈ pre, q.2 ≤ x := by
  unfold selectOption
  rw [List.head?_map]
  constructor
  · intro h
    rcases Option.map_eq_some'.mp h with ⟨⟨v', w⟩, hh, hv⟩
    cases hv
    rcases (head_filter_split _ _ _).mp hh with ⟨l1, l2, heq, hpa, hall⟩
    refine ⟨l1, w, l2, heq, by simpa using hpa, ?_⟩
    intro q hq
    have := hall q hq
    simpa using this
  · rintro ⟨pre, w, post, heq, hw, hpre⟩
    have hh : ((ns.zip (cumsums os)).filter fun p => decide (x < p.2)).head? =
        some (v, w) := by
      refine (head_filter_split _ _ _).mpr ⟨pre, post, heq, by simpa using hw, ?_⟩
      intro b hb
      simpa using hpre b hb
    rw [hh]
    rfl

theorem selectOption_isSome_iff (ns : List String) (os : List ℚ) (x : ℚ) :
    (selectOption ns os x).isSome = true ↔ ∃ q ∈ ns.zip (cumsums os), x < q.2 := by
  unfold selectOption
  rw [List.head?_map]
  constructor
  · intro h
    cases hfe : (ns.zip (cumsums os)).filter fun p => decide (x < p.2) with
    | nil => rw [hfe] at h; simp at h
    | cons q rest =>
      have hq : q ∈ (ns.zip (cumsums os)).filter fun p => decide (x < p.2) := by
        rw [hfe]; exact List.mem_cons_self _ _
      have := List.mem_filter.mp hq
      exact ⟨q, this.1, by simpa using this.2⟩
  · rintro ⟨q, hq, hx⟩
    have hmem : q ∈ (ns.zip (cumsums os)).filter fun p => decide (x < p.2) :=
      List.mem_filter.mpr ⟨hq, by simpa using hx⟩
    cases hfe : (ns.zip (cumsums os)).filter fun p => decide (x < p.2) with
    | nil => rw [hfe] at hmem; simp at hmem
    | cons q' rest => rfl

theorem sel_aux (x : ℚ) :
    ∀ (c : List ℚ) (ns : List String),
      (((ns.zip c).filter fun p => decide (x < p.2)).map Prod.fst).head? =
        (firstExceedingIdx x c).bind fun j => ns.get? j := by
  intro c
  induction c with
  | nil =>
    intro ns
    simp [firstExceedingIdx, List.zip_nil_right]
  | cons w c' ih =>
    intro ns
    cases ns with
    | nil =>
      have hz : (([] : List String).zip (w :: c')) = [] := rfl
      rw [hz]
      simp only [List.filter_nil, List.map_nil, List.head?_nil, firstExceedingIdx]
      cases h : (if x < w then some 0 else (firstExceedingIdx x c').map (· + 1)) with
      | none => rfl
      | some j => simp [List.get?]
    | cons n ns' =>
      rw [List.zip_cons_cons, List.filter_cons]
      by_cases hx : x < w
      · simp [hx, firstExceedingIdx, List.get?]
      · simp only [decide_eq_true_eq, hx, if_false]
        rw [ih ns']
        simp only [firstExceedingIdx, hx, if_false]
        cases h : firstExceedingIdx x c' with
        | none => rfl
        | some j => simp [List.get?]

/-- The code's `compress`-based selection computes exactly the spec's
first-exceeding option. -/
theorem selectOption_eq_firstExceeding (ns : List String) (os : List ℚ) (x : ℚ) :
    selectOption ns os x = firstExceeding ns os x := by
  unfold selectOption firstExceeding
  exact sel_aux x (cumsums os) ns

theorem loop_accepted_of_specResolve (tsvHash : List (String × TSV)) (k : Nat) :
    ∀ (pairs : List (String × ℚ)) (ctx : Ctx) (acc vs : List String),
      specResolve tsvHash pairs ctx = some vs →
      comExecuteSampleLoop tsvHash k pairs ctx acc =
        SampleResult.accepted (toString (k + 1) :: (acc ++ vs)) := by
  intro pairs
  induction pairs with
  | nil =>
    intro ctx acc vs h
    simp only [specResolve, Option.some_inj] at h
    subst h
    simp [comExecuteSampleLoop]
  | cons p rest ih =>
    intro ctx acc vs h
    obtain ⟨attr, x⟩ := p
    cases hlk : tsvHash.lookup attr with
    | none => simp [specResolve, hlk] at h
    | some t =>
      cases hft : filterTable ctx t with
      | error d => simp [specResolve, hlk, hft] at h
      | ok rows =>
        rcases rows with _ | ⟨r, rrest⟩
        · simp [specResolve, hlk, hft] at h
        rcases rrest with _ | ⟨r2, rs⟩
        · cases hfe : firstExceeding t.optNames r.opts x with
          | none => simp [specResolve, hlk, hft, hfe] at h
          | some v =>
            have h' : (specResolve tsvHash rest
                (ctxSet ctx attr (CtxVal.chosen v))).map (fun l => v :: l) =
                some vs := by
              simpa [specResolve, hlk, hft, hfe] using h
            simp only [Option.map_eq_some'] at h'
            rcases h' with ⟨vs', hvs', rfl⟩
            simp only [comExecuteSampleLoop, hlk, hft]
            rw [selectOption_eq_firstExceeding, hfe]
            dsimp only
            rw [ih _ _ _ hvs']
            simp
        · simp [specResolve, hlk, hft] at h

/-- C4 (confirmed): whenever every attribute's dependency-filtered table
reduces to exactly one row and the spec-side walk `specResolve` (filter to one
row, pick the first option whose cumulative weight exceeds the coordinate,
record it in the context) succeeds with options `vs`, then
`_com_execute_sample` accepts with the CSV line `1-based index :: vs`;
moreover the code's `compress`-based selection equals the spec's
first-exceeding-option selection, which picks exactly the first option in
column order whose cumulative weight strictly exceeds the coordinate. -/
theorem comExecuteSample_unique_row_spec (tsvHash : List (String × TSV))
    (depHash : List (String × List String)) (attrOrder : List String)
    (sampleVector : List ℚ) (k : Nat) (vs : List String)
    (h : specResolve tsvHash (attrOrder.zip sampleVector) (initCtx depHash) = some vs) :
    comExecuteSample tsvHash depHash attrOrder sampleVector k =
      SampleResult.accepted (toString (k + 1) :: vs) ∧
    (∀ ns os x, selectOption ns os x = firstExceeding ns os x) ∧
    (∀ (ns : List String) (os : List ℚ) (x : ℚ) (v : String),
      selectOption ns os x = some v →
      ∃ pre w post, ns.zip (cumsums os) = pre ++ (v, w) :: post ∧ x < w ∧
        ∀ q ∈ pre, q.2 ≤ x) := by
  refine ⟨?_, selectOption_eq_firstExceeding, ?_⟩
  · have := loop_accepted_of_specResolve tsvHash k (attrOrder.zip sampleVector)
      (initCtx depHash) [] vs h
    simpa [comExecuteSample] using this
  · intro ns os x v hv
    exact (selectOption_some_iff ns os x v).mp hv

/-- C3 (confirmed): a zero-row filter rejects the sample with the warning
data (attribute, sample index, dependency context) and no fatal error; a
filter retaining two or more rows fails with the non-unique error; at run
level a rejected sample contributes no output row and leaves the rest of the
run unchanged, while a non-unique sample aborts the whole run. -/
theorem comExecuteSample_reject_and_nonunique :
    (∀ (tsvHash : List (String × TSV)) (k : Nat) (attr : String) (x : ℚ)
        (rest : List (String × ℚ)) (ctx : Ctx) (acc : List String) (t : TSV),
      tsvHash.lookup attr = some t → filterTable ctx t = Except.ok [] →
      comExecuteSampleLoop tsvHash k ((attr, x) :: rest) ctx acc =
        SampleResult.rejected attr k ctx) ∧
    (∀ (tsvHash : List (String × TSV)) (k : Nat) (attr : String) (x : ℚ)
        (rest : List (String × ℚ)) (ctx : Ctx) (acc : List String) (t : TSV)
        (r1 r2 : TSVRow) (rs : List TSVRow),
      tsvHash.lookup attr = some t →
      filterTable ctx t = Except.ok (r1 :: r2 :: rs) →
      comExecuteSampleLoop tsvHash k ((attr, x) :: rest) ctx acc =
        SampleResult.fatalNonUnique attr k) ∧
    (∀ (tsvHash : List (String × TSV)) (depHash : List (String × List String))
        (attrOrder : List String) (matrix : List (List ℚ)) (k : Nat)
        (ks : List Nat) (a : String) (i : Nat) (c : Ctx),
      comExecuteSample tsvHash depHash attrOrder (colOf matrix k) k =
        SampleResult.rejected a i c →
      runList tsvHash depHash attrOrder matrix (k :: ks) =
        runList tsvHash depHash attrOrder matrix ks) ∧
    (∀ (tsvHash : List (String × TSV)) (depHash : List (String × List String))
        (attrOrder : List String) (matrix : List (List ℚ)) (k : Nat)
        (ks : List Nat) (a : String) (i : Nat),
      comExecuteSample tsvHash depHash attrOrder (colOf matrix k) k =
        SampleResult.fatalNonUnique a i →
      runList tsvHash depHash attrOrder matrix (k :: ks) =
        Except.error (SampleResult.fatalNonUnique a i)) := by
  refine ⟨?_, ?_, ?_, ?_⟩
  · intro tsvHash k attr x rest ctx acc t hlk hft
    simp [comExecuteSampleLoop, hlk, hft]
  · intro tsvHash k attr x rest ctx acc t r1 r2 rs hlk hft
    simp [comExecuteSampleLoop, hlk, hft]
  · intro tsvHash depHash attrOrder matrix k ks a i c h
    simp [runList, h]
  · intro tsvHash depHash attrOrder matrix k ks a i h
    simp [runList, h]

/-- C10 (confirmed): the unguarded `[0]` on `compress(option_values,
tsv_lkup_cdf)` succeeds exactly when some option column's cumulative weight
strictly exceeds the sample coordinate; when no cumulative value exceeds it,
the single-row case produces the `IndexError` outcome and the whole sampling
run aborts with it instead of rejecting the row. -/
theorem comExecuteSample_index_error :
    (∀ (ns : List String) (os : List ℚ) (x : ℚ),
      (selectOption ns os x).isSome = true ↔
        ∃ q ∈ ns.zip (cumsums os), x < q.2) ∧
    (∀ (tsvHash : List (String × TSV)) (k : Nat) (attr : String) (x : ℚ)
        (rest : List (String × ℚ)) (ctx : Ctx) (acc : List String) (t : TSV)
        (r : TSVRow),
      tsvHash.lookup attr = some t → filterTable ctx t = Except.ok [r] →
      selectOption t.optNames r.opts x = none →
      comExecuteSampleLoop tsvHash k ((attr, x) :: rest) ctx acc =
        SampleResult.fatalIndexErr attr k) ∧
    (∀ (tsvHash : List (String × TSV)) (depHash : List (String × List String))
        (attrOrder : List String) (matrix : List (List ℚ)) (k : Nat)
        (ks : List Nat) (a : String) (i : Nat),
      comExecuteSample tsvHash depHash attrOrder (colOf matrix k) k =
        SampleResult.fatalIndexErr a i →
      runList tsvHash depHash attrOrder matrix (k :: ks) =
        Except.error (SampleResult.fatalIndexErr a i)) := by
  refine ⟨selectOption_isSome_iff, ?_, ?_⟩
  · intro tsvHash k attr x rest ctx acc t r hlk hft hsel
    simp [comExecuteSampleLoop, hlk, hft, hsel]
  · intro tsvHash depHash attrOrder matrix k ks a i h
    simp [runList, h]

/-- Witness for C4: on the concrete one-attribute table the spec walk
resolves to `["x"]` and `_com_execute_sample` accepts the line `["1", "x"]`. -/
theorem comExecuteSample_unique_row_spec_witness :
    specResolve uniqHash [("A", (0 : ℚ))] (initCtx exDepA) = some ["x"] ∧
    comExecuteSample uniqHash exDepA ["A"] [0] 0 =
      SampleResult.accepted ["1", "x"] := by
  have h : specResolve uniqHash [("A", (0 : ℚ))] (initCtx exDepA) = some ["x"] := by
    simp [specResolve, uniqHash, uniqTable, exDepA, initCtx, filterTable,
      filterLoop, firstExceeding, firstExceedingIdx, cumsums, cumsumFrom, ctxSet]
  have h2 := (comExecuteSample_unique_row_spec uniqHash exDepA ["A"] [0] 0 ["x"]
    (by simpa using h)).1
  exact ⟨h, h2.trans (by rfl)⟩

/-- Witness for C3: the zero-row table rejects sample 0 and drops it from the
run; the duplicated-row table makes the run fail with the non-unique error. -/
theorem comExecuteSample_reject_and_nonunique_witness :
    filterTable (initCtx exDepA) rejTable = Except.ok [] ∧
    comExecuteSampleLoop rejHash 0 [("A", 0)] (initCtx exDepA) [] =
      SampleResult.rejected "A" 0 (initCtx exDepA) ∧
    runList rejHash exDepA ["A"] [[0]] [0] = runList rejHash exDepA ["A"] [[0]] [] ∧
    runList dupHash exDepA ["A"] [[0]] [0] =
      Except.error (SampleResult.fatalNonUnique "A" 0) := by
  have hft : filterTable (initCtx exDepA) rejTable = Except.ok [] := rfl
  have hlk : List.lookup "A" rejHash = some rejTable := rfl
  have h1 := comExecuteSample_reject_and_nonunique.1 rejHash 0 "A" 0 []
    (initCtx exDepA) [] rejTable hlk hft
  have hrej : comExecuteSample rejHash exDepA ["A"] (colOf [[0]] 0) 0 =
      SampleResult.rejected "A" 0 (initCtx exDepA) := by
    simpa [comExecuteSample, colOf] using h1
  have h3 := comExecuteSample_reject_and_nonunique.2.2.1 rejHash exDepA ["A"]
    [[0]] 0 [] "A" 0 (initCtx exDepA) hrej
  have hftd : filterTable (initCtx exDepA) dupTable =
      Except.ok [⟨[], [1]⟩, ⟨[], [1]⟩] := rfl
  have h2 := comExecuteSample_reject_and_nonunique.2.1 dupHash 0 "A" 0 []
    (initCtx exDepA) [] dupTable ⟨[], [1]⟩ ⟨[], [1]⟩ [] rfl hftd
  have hdup : comExecuteSample dupHash exDepA ["A"] (colOf [[0]] 0) 0 =
      SampleResult.fatalNonUnique "A" 0 := by
    simpa [comExecuteSample, colOf] using h2
  have h4 := comExecuteSample_reject_and_nonunique.2.2.2 dupHash exDepA ["A"]
    [[0]] 0 [] "A" 0 hdup
  exact ⟨hft, h1, h3, h4⟩

/-- Witness for C10: with a single option of cumulative weight 1 and a
coordinate of 5 the selection is empty, the loop yields the `IndexError`
outcome, and the run aborts with it. -/
theorem comExecuteSample_index_error_witness :
    selectOption ["x"] [1] 5 = none ∧
    comExecuteSampleLoop oneHash 0 [("A", 5)] (initCtx exDepA) [] =
      SampleResult.fatalIndexErr "A" 0 ∧
    runList oneHash exDepA ["A"] [[5]] [0] =
      Except.error (SampleResult.fatalIndexErr "A" 0) := by
  have hsel : selectOption ["x"] [1] 5 = none := by
    simp [selectOption, cumsums, cumsumFrom]
  have h2 := comExecuteSample_index_error.2.1 oneHash 0 "A" 5 [] (initCtx exDepA)
    [] oneTable ⟨[], [1]⟩ rfl rfl hsel
  have hone : comExecuteSample oneHash exDepA ["A"] (colOf [[5]] 0) 0 =
      SampleResult.fatalIndexErr "A" 0 := by
    simpa [comExecuteSample, colOf] using h2
  have h3 := comExecuteSample_index_error.2.2 oneHash exDepA ["A"] [[5]] 0 []
    "A" 0 hone
  exact ⟨hsel, h2, h3⟩

theorem flatten_chunksOfAux (s : Nat) :
    ∀ (fuel : Nat) (l : List Sim), l.length ≤ fuel →
      (chunksOfAux s fuel l).flatten = l := by
  intro fuel
  induction fuel with
  | zero =>
    intro l hl
    have : l = [] := List.eq_nil_of_length_eq_zero (Nat.le_zero.mp hl)
    subst this
    rfl
  | succ f ih =>
    intro l hl
    cases l with
    | nil => rfl
    | cons x xs =>
      simp only [chunksOfAux, List.flatten_cons]
      have hdrop : (xs.drop (s - 1)).length ≤ f := by
        rw [List.length_drop]
        have : xs.length ≤ f := by
          simpa [Nat.succ_le_succ_iff] using hl
        omega
      rw [ih (xs.drop (s - 1)) hdrop]
      simp [List.take_append_drop]

theorem flatten_chunksOf (s : Nat) (l : List Sim) :
    (chunksOf s l).flatten = l :=
  flatten_chunksOfAux s l.length l (Nat.le_refl _)

theorem nodup_allSims (n u : Nat) : (allSims n u).Nodup := by
  have hb : (baselineSims n).Nodup := by
    refine List.Nodup.map ?_ (List.nodup_range' _ _)
    intro a b hab
    simpa using hab
  have hu : (upgradeSims n u).Nodup := by
    refine List.Nodup.map ?_ ?_
    · intro p q hpq
      simp only [Prod.mk.injEq, Option.some_inj] at hpq
      exact Prod.ext hpq.1 hpq.2
    · exact List.Nodup.product (List.nodup_range' _ _) (List.nodup_range _)
  refine List.Nodup.append hb hu ?_
  intro a hab hau
  rcases List.mem_map.mp hab with ⟨i, _, rfl⟩
  rcases List.mem_map.mp hau with ⟨p, _, hp⟩
  simp at hp

set_option maxRecDepth 10000 in
/-- C5 (confirmed): `run_batch` sizes jobs as `max(ceil(total/jobs), 48)` and
its descriptors partition the shuffled workload exactly: the concatenation of
all batches is a permutation of the full workload, every unit appears exactly
once, and job numbers are contiguous starting at 1; concretely, 100
baseline-only units with 200 requested jobs yield 3 jobs sized `[48, 48, 4]`
covering the workload exactly. -/
theorem run_batch_partition (n u n_jobs : Nat) (shuffled : List Sim)
    (hn : 1 ≤ n) (hperm : shuffled.Perm (allSims n u)) :
    (((runBatchJobs n u n_jobs shuffled).map Prod.snd).flatten).Perm (allSims n u) ∧
    (allSims n u).Nodup ∧
    (((runBatchJobs n u n_jobs shuffled).map Prod.snd).flatten).Nodup ∧
    (∀ s, s ∈ ((runBatchJobs n u n_jobs shuffled).map Prod.snd).flatten ↔
      s ∈ allSims n u) ∧
    (runBatchJobs n u n_jobs shuffled).map Prod.fst =
      List.range' 1 (chunksOf (nSimsPerJob n u n_jobs) shuffled).length ∧
    nSimsPerJob n u n_jobs = max (ceilDiv (n * (u + 1)) n_jobs) 48 ∧
    (runBatchJobs 100 0 200 (allSims 100 0)).map (fun j => j.2.length) =
      [48, 48, 4] ∧
    ((runBatchJobs 100 0 200 (allSims 100 0)).map Prod.snd).flatten = allSims 100 0 := by
  have hjoin : ((runBatchJobs n u n_jobs shuffled).map Prod.snd).flatten = shuffled := by
    have hmap : (runBatchJobs n u n_jobs shuffled).map Prod.snd =
        chunksOf (nSimsPerJob n u n_jobs) shuffled := by
      simp [runBatchJobs, List.enumFrom_map_snd]
    rw [hmap]
    exact flatten_chunksOf _ _
  have hjoinperm : (((runBatchJobs n u n_jobs shuffled).map Prod.snd).flatten).Perm
      (allSims n u) := by
    rw [hjoin]; exact hperm
  refine ⟨hjoinperm, nodup_allSims n u, hjoinperm.nodup_iff.mpr (nodup_allSims n u),
    fun s => hjoinperm.mem_iff, ?_, rfl, by decide, by decide⟩
  simp [runBatchJobs, List.enumFrom_map_fst]

/-- Witness for C5: the partition theorem applied to the concrete 100-unit
baseline-only workload with the identity shuffle. -/
theorem run_batch_partition_witness :
    (((runBatchJobs 100 0 200 (allSims 100 0)).map Prod.snd).flatten).Perm
      (allSims 100 0) ∧
    (runBatchJobs 100 0 200 (allSims 100 0)).map (fun j => j.2.length) =
      [48, 48, 4] := by
  have h := run_batch_partition 100 0 200 (allSims 100 0) (by norm_num)
    (List.Perm.refl _)
  exact ⟨h.1, h.2.2.2.2.2.2.1⟩

/-- C9 (confirmed): with a finished or failed marker present, `run_building`
returns immediately, does not execute, and leaves the directory unchanged;
with the directory present but no marker, the stale directory is discarded
and the unit is redone from scratch — the result is the same as for a missing
directory and is independent of the stale contents. -/
theorem run_building_idempotent (d : SimDir) (fresh : SimDir) :
    (d.finishedJob = true ∨ d.failedJob = true →
      run_building (some d) fresh = (some d, false)) ∧
    (d.finishedJob = false → d.failedJob = false →
      run_building (some d) fresh = run_building none fresh ∧
      run_building (some d) fresh = (some fresh, true)) := by
  constructor
  · rintro (h | h) <;> simp [run_building, h]
  · intro h1 h2
    simp [run_building, h1, h2]

/-- Witness for C9: a finished-marker directory is skipped unchanged; a
marker-less stale directory is redone from scratch. -/
theorem run_building_idempotent_witness :
    run_building (some ⟨true, false, ["stale.osw"]⟩) ⟨false, true, []⟩ =
      (some ⟨true, false, ["stale.osw"]⟩, false) ∧
    run_building (some ⟨false, false, ["stale.osw"]⟩) ⟨false, true, []⟩ =
      (some ⟨false, true, []⟩, true) :=
  ⟨(run_building_idempotent ⟨true, false, ["stale.osw"]⟩ ⟨false, true, []⟩).1
      (Or.inl rfl),
   ((run_building_idempotent ⟨false, false, ["stale.osw"]⟩ ⟨false, true, []⟩).2
      rfl rfl).2⟩

theorem i4_sobol_generate_mem_unit (n_dims n_samples skip : Nat) :
    ∀ row ∈ i4_sobol_generate n_dims n_samples skip, ∀ x ∈ row,
      0 ≤ x ∧ x ≤ 1 := by
  intro row hrow x hx
  simp only [i4_sobol_generate, List.mem_map] at hrow
  rcases hrow with ⟨i, _, rfl⟩
  simp only [List.mem_map] at hx
  rcases hx with ⟨j, _, rfl⟩
  constructor
  · positivity
  · rw [div_le_one (by norm_num)]
    have h5 : (i + 2 * j + skip) % 5 < 5 := Nat.mod_lt _ (by norm_num)
    have h4 : (i + 2 * j + skip) % 5 ≤ 4 := by omega
    exact_mod_cast le_trans (Nat.cast_le.mpr h4) (by norm_num)

theorem clampUnit_lt_one (x : ℚ) (h0 : 0 ≤ x) (h1 : x ≤ 1) :
    0 ≤ clampUnit x ∧ clampUnit x < 1 := by
  unfold clampUnit
  by_cases hx : x = 1
  · rw [if_pos hx]; norm_num
  · rw [if_neg hx]
    exact ⟨h0, lt_of_le_of_ne h1 hx⟩

/-- C8 (confirmed, spec-modelled generator): the sampling pipeline is a pure
function of `(n_dims, n_samples)` with the fixed skip 0, so two executions
produce the identical point set and — for the same attribute tables — the
identical run result; every clamped coordinate lies in `[0, 1)`, and a raw
coordinate equal to 1 is clamped to exactly `0.999999`. -/
theorem comExecuteSobolSampling_deterministic (n_dims n_samples : Nat)
    (tsvHash : List (String × TSV)) (depHash : List (String × List String))
    (attrOrder : List String) :
    comExecuteSobolSampling n_dims n_samples =
      comExecuteSobolSampling n_dims n_samples ∧
    runSamples tsvHash depHash attrOrder (comExecuteSobolSampling n_dims n_samples)
        n_samples =
      runSamples tsvHash depHash attrOrder (comExecuteSobolSampling n_dims n_samples)
        n_samples ∧
    (∀ row ∈ comExecuteSobolSampling n_dims n_samples, ∀ x ∈ row,
      0 ≤ x ∧ x < 1) ∧
    clampUnit 1 = 999999 / 1000000 := by
  refine ⟨rfl, rfl, ?_, by norm_num [clampUnit]⟩
  intro row hrow x hx
  simp only [comExecuteSobolSampling, List.mem_map] at hrow
  rcases hrow with ⟨row0, hrow0, rfl⟩
  simp only [List.mem_map] at hx
  rcases hx with ⟨x0, hx0, rfl⟩
  have := i4_sobol_generate_mem_unit n_dims n_samples 0 row0 hrow0 x0 hx0
  exact clampUnit_lt_one x0 this.1 this.2

/-! Shape lemmas about the filename patterns. -/
theorem matchJobOut_shape {n : FName} {arrayId : Nat}
    (h : matchJobOut n = some arrayId) :
    ∃ c4 rest, n = 'j' :: 'o' :: 'b' :: c4 :: 'o' :: 'u' :: 't' :: '-' :: rest ∧
      rest ≠ [] ∧ rest.all Char.isDigit = true := by
  unfold matchJobOut at h
  split at h
  next c1 c2 c3 x c5 c6 c7 c8 rest =>
    split_ifs at h with hc
    obtain ⟨h1, h2, h3, h5, h6, h7, h8, hne, hdig⟩ := hc
    subst h1; subst h2; subst h3; subst h5; subst h6; subst h7; subst h8
    exact ⟨x, rest, rfl, hne, hdig⟩
  next => exact absurd h (by simp)

theorem matchJobOut_bakName {n : FName} {arrayId : Nat}
    (h : matchJobOut n = some arrayId) : matchJobOut (bakName n) = none := by
  obtain ⟨c4, rest, rfl, hne, hdig⟩ := matchJobOut_shape h
  show matchJobOut ('j' :: 'o' :: 'b' :: c4 :: 'o' :: 'u' :: 't' :: '-' ::
    (rest ++ ".bak".toList)) = none
  unfold matchJobOut
  dsimp only
  rw [if_neg]
  intro hc
  have hall : (rest ++ ".bak".toList).all Char.isDigit = true := hc.2.2.2.2.2.2.2.2
  rw [List.all_append] at hall
  have : (".bak".toList.all Char.isDigit) = true := by
    exact (Bool.and_eq_true _ _ |>.mp hall).2
  simp [String.toList] at this

theorem startsWithJson_mem {s : FName} (h : startsWithJson s = true) :
    'j' ∈ s := by
  unfold startsWithJson at h
  split at h
  next => simp
  next => exact absurd h (by simp)

theorem jsonScan_mem {s : FName} (h : jsonScan s = true) : 'j' ∈ s := by
  induction s with
  | nil => simp [jsonScan] at h
  | cons c rest ih =>
    simp only [jsonScan, Bool.or_eq_true, Bool.and_eq_true] at h
    rcases h with h | ⟨_, h⟩
    · exact List.mem_cons_of_mem _ (startsWithJson_mem h)
    · exact List.mem_cons_of_mem _ (ih h)

theorem matchJobOut_not_json {n : FName} {arrayId : Nat}
    (h : matchJobOut n = some arrayId) : matchJobJson n = false := by
  obtain ⟨c4, rest, rfl, _, hdig⟩ := matchJobOut_shape h
  simp only [matchJobJson]
  cases hd : c4.isDigit
  · simp
  · simp only [Bool.true_and]
    cases hj : jsonScan ('o' :: 'u' :: 't' :: '-' :: rest)
    · rfl
    · exfalso
      have hm := jsonScan_mem hj
      simp only [List.mem_cons] at hm
      rcases hm with h' | h' | h' | h' | h'
      · exact absurd h' (by decide)
      · exact absurd h' (by decide)
      · exact absurd h' (by decide)
      · exact absurd h' (by decide)
      · have := List.all_eq_true.mp hdig 'j' h'
        exact absurd this (by decide)

theorem matchJobJson_bakName {n : FName} {arrayId : Nat}
    (h : matchJobOut n = some arrayId) : matchJobJson (bakName n) = false := by
  obtain ⟨c4, rest, rfl, _, hdig⟩ := matchJobOut_shape h
  show matchJobJson ('j' :: 'o' :: 'b' :: c4 :: 'o' :: 'u' :: 't' :: '-' ::
    (rest ++ ".bak".toList)) = false
  simp only [matchJobJson]
  cases hd : c4.isDigit
  · simp
  · simp only [Bool.true_and]
    cases hj : jsonScan ('o' :: 'u' :: 't' :: '-' :: (rest ++ ".bak".toList))
    · rfl
    · exfalso
      have hm := jsonScan_mem hj
      simp only [List.mem_cons] at hm
      rcases hm with h' | h' | h' | h' | h'
      · exact absurd h' (by decide)
      · exact absurd h' (by decide)
      · exact absurd h' (by decide)
      · exact absurd h' (by decide)
      · rcases List.mem_append.mp h' with h'' | h''
        · have := List.all_eq_true.mp hdig 'j' h''
          exact absurd this (by decide)
        · simp [String.toList] at h''

theorem matchJobOut_none_of_json {n : FName} (h : matchJobJson n = true) :
    matchJobOut n = none := by
  cases hmo : matchJobOut n with
  | none => rfl
  | some arrayId =>
    have := matchJobOut_not_json hmo
    rw [h] at this
    exact absurd this (by simp)

/-! Lemmas about the directory operations. -/
theorem removeFile_subset {d : Dir} {n : FName} :
    ∀ e ∈ removeFile d n, e ∈ d := fun _ he => List.mem_of_mem_filter he

theorem removeFile_name_ne {d : Dir} {n : FName} :
    ∀ e ∈ removeFile d n, e.1 ≠ n := by
  intro e he
  have := List.of_mem_filter he
  simpa using this

theorem mem_removeFile {d : Dir} {n : FName} {e : FName × FileContent}
    (he : e ∈ d) (hne : e.1 ≠ n) : e ∈ removeFile d n :=
  List.mem_filter.mpr ⟨he, by simpa using hne⟩

theorem appendBak_mem {d : Dir} {n s : FName} :
    ∀ e ∈ appendBak d n s, e ∈ d ∨ e.1 = bakName n := by
  intro e he
  unfold appendBak at he
  split at he
  · rcases List.mem_map.mp he with ⟨e0, he0, heq⟩
    by_cases hb : (e0.1 == bakName n) = true
    · right
      rw [if_pos hb] at heq
      rw [← heq]
      exact eq_of_beq hb
    · left
      rw [if_neg hb] at heq
      rw [← heq]
      exact he0
  · rcases List.mem_append.mp he with h | h
    · exact Or.inl h
    · right
      simp only [List.mem_singleton] at h
      rw [h]

theorem appendBak_mem_of_ne {d : Dir} {n s : FName} {e : FName × FileContent}
    (he : e ∈ d) (hne : e.1 ≠ bakName n) : e ∈ appendBak d n s := by
  unfold appendBak
  split
  · refine List.mem_map.mpr ⟨e, he, ?_⟩
    rw [if_neg]
    simpa using hne
  · exact List.mem_append_left _ he

theorem appendBak_present (d : Dir) (n s : FName) :
    ∃ bc, (bakName n, bc) ∈ appendBak d n s := by
  unfold appendBak
  split
  next hany =>
    rcases List.any_eq_true.mp hany with ⟨e0, he0, hbeq⟩
    have heq : e0.1 = bakName n := eq_of_beq hbeq
    refine ⟨FileContent.text (readText e0.2 ++ '\n' :: s), ?_⟩
    refine List.mem_map.mpr ⟨e0, he0, ?_⟩
    rw [if_pos hbeq, heq]
  next =>
    exact ⟨FileContent.text ('\n' :: s), List.mem_append_right _ (by simp)⟩

theorem appendBak_name_present {d : Dir} {q : FName} (n s : FName)
    (h : ∃ bc, (q, bc) ∈ d) : ∃ bc, (q, bc) ∈ appendBak d n s := by
  by_cases hq : q = bakName n
  · subst hq
    exact appendBak_present d n s
  · rcases h with ⟨bc, hbc⟩
    exact ⟨bc, appendBak_mem_of_ne hbc hq⟩

/-! Step equations for the scan loop. -/
theorem scanGo_cons_out_kill {n : FName} {c : FileContent}
    {rest : List (FName × FileContent)} {st : ScanSt} {arrayId : Nat}
    (hmo : matchJobOut n = some arrayId)
    (hw : hasWalltimeKill (readText c) = true) :
    scanGo ((n, c) :: rest) st = scanGo rest
      { restarts := st.restarts ++ [arrayId]
        nSims := st.nSims
        dir := appendBak (removeFile st.dir n) n (readText c) } := by
  simp [scanGo, hmo, hw]

theorem scanGo_cons_out_nokill {n : FName} {c : FileContent}
    {rest : List (FName × FileContent)} {st : ScanSt} {arrayId : Nat}
    (hmo : matchJobOut n = some arrayId)
    (hw : hasWalltimeKill (readText c) = false) :
    scanGo ((n, c) :: rest) st = scanGo rest st := by
  simp [scanGo, hmo, hw]

theorem scanGo_cons_json {n : FName} {c : FileContent}
    {rest : List (FName × FileContent)} {st : ScanSt} {len : Nat}
    (hmo : matchJobOut n = none) (hjs : matchJobJson n = true)
    (hbl : batchLen c = some len) :
    scanGo ((n, c) :: rest) st =
      scanGo rest { st with nSims := max len st.nSims } := by
  simp [scanGo, hmo, hjs, hbl]

theorem scanGo_cons_json_bad {n : FName} {c : FileContent}
    {rest : List (FName × FileContent)} {st : ScanSt}
    (hmo : matchJobOut n = none) (hjs : matchJobJson n = true)
    (hbl : batchLen c = none) :
    scanGo ((n, c) :: rest) st = none := by
  simp [scanGo, hmo, hjs, hbl]

theorem scanGo_cons_other {n : FName} {c : FileContent}
    {rest : List (FName × FileContent)} {st : ScanSt}
    (hmo : matchJobOut n = none) (hjs : matchJobJson n = false) :
    scanGo ((n, c) :: rest) st = scanGo rest st := by
  simp [scanGo, hmo, hjs]

/-! Invariants of the scan loop. -/
theorem scanGo_no_bad :
    ∀ (entries : List (FName × FileContent)) (st st' : ScanSt),
      scanGo entries st = some st' →
      (∀ e ∈ st.dir, (∃ arrayId, matchJobOut e.1 = some arrayId) →
        hasWalltimeKill (readText e.2) = true → e ∈ entries) →
      ∀ e ∈ st'.dir, ∀ arrayId, matchJobOut e.1 = some arrayId →
        hasWalltimeKill (readText e.2) = false := by
  intro entries
  induction entries with
  | nil =>
    intro st st' h hH e he arrayId hmo
    simp only [scanGo, Option.some_inj] at h
    subst h
    cases hwk : hasWalltimeKill (readText e.2) with
    | false => rfl
    | true =>
      have := hH e he ⟨arrayId, hmo⟩ hwk
      simp at this
  | cons hd rest ih =>
    intro st st' h hH
    obtain ⟨n, c⟩ := hd
    cases hmo : matchJobOut n with
    | some headId =>
      cases hw : hasWalltimeKill (readText c) with
      | true =>
        rw [scanGo_cons_out_kill hmo hw] at h
        refine ih _ _ h ?_
        intro e he hbad hwk
        rcases appendBak_mem e he with hrm | hbk
        · have hin := removeFile_subset e hrm
          have hne := removeFile_name_ne e hrm
          rcases List.mem_cons.mp (hH e hin hbad hwk) with heq | htl
          · exact absurd (congrArg Prod.fst heq) hne
          · exact htl
        · rcases hbad with ⟨arrayId, hmo'⟩
          rw [hbk, matchJobOut_bakName hmo] at hmo'
          exact absurd hmo' (by simp)
      | false =>
        rw [scanGo_cons_out_nokill hmo hw] at h
        refine ih _ _ h ?_
        intro e he hbad hwk
        rcases List.mem_cons.mp (hH e he hbad hwk) with heq | htl
        · rw [heq] at hwk
          rw [hwk] at hw
          exact absurd hw (by simp)
        · exact htl
    | none =>
      cases hjs : matchJobJson n with
      | true =>
        cases hbl : batchLen c with
        | some len =>
          rw [scanGo_cons_json hmo hjs hbl] at h
          refine ih _ _ h ?_
          intro e he hbad hwk
          rcases List.mem_cons.mp (hH e he hbad hwk) with heq | htl
          · rcases hbad with ⟨arrayId, hmo'⟩
            rw [heq] at hmo'
            rw [hmo] at hmo'
            exact absurd hmo' (by simp)
          · exact htl
        | none =>
          rw [scanGo_cons_json_bad hmo hjs hbl] at h
          exact absurd h (by simp)
      | false =>
        rw [scanGo_cons_other hmo hjs] at h
        refine ih _ _ h ?_
        intro e he hbad hwk
        rcases List.mem_cons.mp (hH e he hbad hwk) with heq | htl
        · rcases hbad with ⟨arrayId, hmo'⟩
          rw [heq] at hmo'
          rw [hmo] at hmo'
          exact absurd hmo' (by simp)
        · exact htl

theorem scanGo_dir_mem :
    ∀ (entries : List (FName × FileContent)) (st st' : ScanSt),
      scanGo entries st = some st' →
      ∀ e ∈ st'.dir, e ∈ st.dir ∨
        ∃ m arrayId, matchJobOut m = some arrayId ∧ e.1 = bakName m := by
  intro entries
  induction entries with
  | nil =>
    intro st st' h e he
    simp only [scanGo, Option.some_inj] at h
    subst h
    exact Or.inl he
  | cons hd rest ih =>
    intro st st' h e he
    obtain ⟨n, c⟩ := hd
    cases hmo : matchJobOut n with
    | some headId =>
      cases hw : hasWalltimeKill (readText c) with
      | true =>
        rw [scanGo_cons_out_kill hmo hw] at h
        rcases ih _ _ h e he with hin | hbk
        · rcases appendBak_mem e hin with hrm | hbk'
          · exact Or.inl (removeFile_subset e hrm)
          · exact Or.inr ⟨n, headId, hmo, hbk'⟩
        · exact Or.inr hbk
      | false =>
        rw [scanGo_cons_out_nokill hmo hw] at h
        exact ih _ _ h e he
    | none =>
      cases hjs : matchJobJson n with
      | true =>
        cases hbl : batchLen c with
        | some len =>
          rw [scanGo_cons_json hmo hjs hbl] at h
          exact ih _ _ h e he
        | none =>
          rw [scanGo_cons_json_bad hmo hjs hbl] at h
          exact absurd h (by simp)
      | false =>
        rw [scanGo_cons_other hmo hjs] at h
        exact ih _ _ h e he

theorem scanGo_dir_preserved :
    ∀ (entries : List (FName × FileContent)) (st st' : ScanSt),
      scanGo entries st = some st' →
      ∀ e ∈ st.dir, matchJobOut e.1 = none →
        (∀ m arrayId, matchJobOut m = some arrayId → e.1 ≠ bakName m) →
        e ∈ st'.dir := by
  intro entries
  induction entries with
  | nil =>
    intro st st' h e he _ _
    simp only [scanGo, Option.some_inj] at h
    subst h
    exact he
  | cons hd rest ih =>
    intro st st' h e he hnone hnb
    obtain ⟨n, c⟩ := hd
    cases hmo : matchJobOut n with
    | some headId =>
      cases hw : hasWalltimeKill (readText c) with
      | true =>
        rw [scanGo_cons_out_kill hmo hw] at h
        refine ih _ _ h e ?_ hnone hnb
        have hne : e.1 ≠ n := by
          intro hq
          rw [hq, hmo] at hnone
          exact absurd hnone (by simp)
        exact appendBak_mem_of_ne (mem_removeFile he hne) (hnb n headId hmo)
      | false =>
        rw [scanGo_cons_out_nokill hmo hw] at h
        exact ih _ _ h e he hnone hnb
    | none =>
      cases hjs : matchJobJson n with
      | true =>
        cases hbl : batchLen c with
        | some len =>
          rw [scanGo_cons_json hmo hjs hbl] at h
          exact ih _ _ h e he hnone hnb
        | none =>
          rw [scanGo_cons_json_bad hmo hjs hbl] at h
          exact absurd h (by simp)
      | false =>
        rw [scanGo_cons_other hmo hjs] at h
        exact ih _ _ h e he hnone hnb

theorem scanGo_restarts :
    ∀ (entries : List (FName × FileContent)) (st st' : ScanSt),
      scanGo entries st = some st' →
      st'.restarts = st.restarts ++ restartsOf entries := by
  intro entries
  induction entries with
  | nil =>
    intro st st' h
    simp only [scanGo, Option.some_inj] at h
    subst h
    simp [restartsOf]
  | cons hd rest ih =>
    intro st st' h
    obtain ⟨n, c⟩ := hd
    cases hmo : matchJobOut n with
    | some headId =>
      cases hw : hasWalltimeKill (readText c) with
      | true =>
        rw [scanGo_cons_out_kill hmo hw] at h
        rw [ih _ _ h]
        simp [restartsOf, List.filterMap_cons, hmo, hw]
      | false =>
        rw [scanGo_cons_out_nokill hmo hw] at h
        rw [ih _ _ h]
        simp [restartsOf, List.filterMap_cons, hmo, hw]
    | none =>
      cases hjs : matchJobJson n with
      | true =>
        cases hbl : batchLen c with
        | some len =>
          rw [scanGo_cons_json hmo hjs hbl] at h
          rw [ih _ _ h]
          simp [restartsOf, List.filterMap_cons, hmo]
        | none =>
          rw [scanGo_cons_json_bad hmo hjs hbl] at h
          exact absurd h (by simp)
      | false =>
        rw [scanGo_cons_other hmo hjs] at h
        rw [ih _ _ h]
        simp [restartsOf, List.filterMap_cons, hmo]

theorem scanGo_nSims :
    ∀ (entries : List (FName × FileContent)) (st st' : ScanSt),
      scanGo entries st = some st' →
      st'.nSims = max st.nSims (maxBatchLen entries) := by
  intro entries
  induction entries with
  | nil =>
    intro st st' h
    simp only [scanGo, Option.some_inj] at h
    subst h
    simp [maxBatchLen]
  | cons hd rest ih =>
    intro st st' h
    obtain ⟨n, c⟩ := hd
    cases hmo : matchJobOut n with
    | some headId =>
      cases hw : hasWalltimeKill (readText c) with
      | true =>
        rw [scanGo_cons_out_kill hmo hw] at h
        rw [ih _ _ h]
        simp [maxBatchLen, List.filterMap_cons, hmo]
      | false =>
        rw [scanGo_cons_out_nokill hmo hw] at h
        rw [ih _ _ h]
        simp [maxBatchLen, List.filterMap_cons, hmo]
    | none =>
      cases hjs : matchJobJson n with
      | true =>
        cases hbl : batchLen c with
        | some len =>
          rw [scanGo_cons_json hmo hjs hbl] at h
          rw [ih _ _ h]
          have hmb : maxBatchLen ((n, c) :: rest) = max len (maxBatchLen rest) := by
            simp [maxBatchLen, List.filterMap_cons, hmo, hjs, hbl]
          rw [hmb]
          simp only [ScanSt.mk.injEq]
          omega
        | none =>
          rw [scanGo_cons_json_bad hmo hjs hbl] at h
          exact absurd h (by simp)
      | false =>
        rw [scanGo_cons_other hmo hjs] at h
        rw [ih _ _ h]
        simp [maxBatchLen, List.filterMap_cons, hmo, hjs]

theorem scanGo_json_ok :
    ∀ (entries : List (FName × FileContent)) (st st' : ScanSt),
      scanGo entries st = some st' →
      ∀ e ∈ entries, matchJobOut e.1 = none → matchJobJson e.1 = true →
        (batchLen e.2).isSome = true := by
  intro entries
  induction entries with
  | nil => intro st st' _ e he; exact absurd he (List.not_mem_nil _)
  | cons hd rest ih =>
    intro st st' h e he hnone hjson
    obtain ⟨n, c⟩ := hd
    rcases List.mem_cons.mp he with heq | htl
    · subst heq
      simp only at hnone hjson ⊢
      cases hbl : batchLen c with
      | some len => simp [hbl]
      | none =>
        rw [scanGo_cons_json_bad hnone hjson hbl] at h
        exact absurd h (by simp)
    · cases hmo : matchJobOut n with
      | some headId =>
        cases hw : hasWalltimeKill (readText c) with
        | true =>
          rw [scanGo_cons_out_kill hmo hw] at h
          exact ih _ _ h e htl hnone hjson
        | false =>
          rw [scanGo_cons_out_nokill hmo hw] at h
          exact ih _ _ h e htl hnone hjson
      | none =>
        cases hjs : matchJobJson n with
        | true =>
          cases hbl : batchLen c with
          | some len =>
            rw [scanGo_cons_json hmo hjs hbl] at h
            exact ih _ _ h e htl hnone hjson
          | none =>
            rw [scanGo_cons_json_bad hmo hjs hbl] at h
            exact absurd h (by simp)
        | false =>
          rw [scanGo_cons_other hmo hjs] at h
          exact ih _ _ h e htl hnone hjson

theorem scanGo_isSome :
    ∀ (entries : List (FName × FileContent)) (st : ScanSt),
      (∀ e ∈ entries, matchJobOut e.1 = none → matchJobJson e.1 = true →
        (batchLen e.2).isSome = true) →
      ∃ st', scanGo entries st = some st' := by
  intro entries
  induction entries with
  | nil => intro st _; exact ⟨st, rfl⟩
  | cons hd rest ih =>
    intro st hok
    obtain ⟨n, c⟩ := hd
    have hok' : ∀ e ∈ rest, matchJobOut e.1 = none → matchJobJson e.1 = true →
        (batchLen e.2).isSome = true :=
      fun e he => hok e (List.mem_cons_of_mem _ he)
    cases hmo : matchJobOut n with
    | some headId =>
      cases hw : hasWalltimeKill (readText c) with
      | true =>
        rw [scanGo_cons_out_kill hmo hw]
        exact ih _ hok'
      | false =>
        rw [scanGo_cons_out_nokill hmo hw]
        exact ih _ hok'
    | none =>
      cases hjs : matchJobJson n with
      | true =>
        cases hbl : batchLen c with
        | some len =>
          rw [scanGo_cons_json hmo hjs hbl]
          exact ih _ hok'
        | none =>
          have := hok (n, c) (List.mem_cons_self _ _) hmo hjs
          rw [hbl] at this
          exact absurd this (by simp)
      | false =>
        rw [scanGo_cons_other hmo hjs]
        exact ih _ hok'

theorem scanGo_absent :
    ∀ (entries : List (FName × FileContent)) (st st' : ScanSt),
      scanGo entries st = some st' →
      ∀ (q : FName) (arrayId : Nat), matchJobOut q = some arrayId →
        (∀ c', (q, c') ∉ st.dir) → ∀ c', (q, c') ∉ st'.dir := by
  intro entries
  induction entries with
  | nil =>
    intro st st' h q arrayId _ habs c'
    simp only [scanGo, Option.some_inj] at h
    subst h
    exact habs c'
  | cons hd rest ih =>
    intro st st' h q arrayId hq habs
    obtain ⟨n, c⟩ := hd
    cases hmo : matchJobOut n with
    | some headId =>
      cases hw : hasWalltimeKill (readText c) with
      | true =>
        rw [scanGo_cons_out_kill hmo hw] at h
        refine ih _ _ h q arrayId hq ?_
        intro c' hc'
        rcases appendBak_mem _ hc' with hrm | hbk
        · exact habs c' (removeFile_subset _ hrm)
        · simp only at hbk
          rw [hbk, matchJobOut_bakName hmo] at hq
          exact absurd hq (by simp)
      | false =>
        rw [scanGo_cons_out_nokill hmo hw] at h
        exact ih _ _ h q arrayId hq habs
    | none =>
      cases hjs : matchJobJson n with
      | true =>
        cases hbl : batchLen c with
        | some len =>
          rw [scanGo_cons_json hmo hjs hbl] at h
          exact ih _ _ h q arrayId hq habs
        | none =>
          rw [scanGo_cons_json_bad hmo hjs hbl] at h
          exact absurd h (by simp)
      | false =>
        rw [scanGo_cons_other hmo hjs] at h
        exact ih _ _ h q arrayId hq habs

theorem scanGo_bak_present :
    ∀ (entries : List (FName × FileContent)) (st st' : ScanSt),
      scanGo entries st = some st' →
      ∀ (q : FName) (arrayId : Nat), matchJobOut q = some arrayId →
        (∃ bc, (bakName q, bc) ∈ st.dir) → ∃ bc, (bakName q, bc) ∈ st'.dir := by
  intro entries
  induction entries with
  | nil =>
    intro st st' h q arrayId _ hpres
    simp only [scanGo, Option.some_inj] at h
    subst h
    exact hpres
  | cons hd rest ih =>
    intro st st' h q arrayId hq hpres
    obtain ⟨n, c⟩ := hd
    cases hmo : matchJobOut n with
    | some headId =>
      cases hw : hasWalltimeKill (readText c) with
      | true =>
        rw [scanGo_cons_out_kill hmo hw] at h
        refine ih _ _ h q arrayId hq ?_
        rcases hpres with ⟨bc, hbc⟩
        have hne : bakName q ≠ n := by
          intro hqn
          rw [← hqn, matchJobOut_bakName hq] at hmo
          exact absurd hmo (by simp)
        exact appendBak_name_present n (readText c) ⟨bc, mem_removeFile hbc hne⟩
      | false =>
        rw [scanGo_cons_out_nokill hmo hw] at h
        exact ih _ _ h q arrayId hq hpres
    | none =>
      cases hjs : matchJobJson n with
      | true =>
        cases hbl : batchLen c with
        | some len =>
          rw [scanGo_cons_json hmo hjs hbl] at h
          exact ih _ _ h q arrayId hq hpres
        | none =>
          rw [scanGo_cons_json_bad hmo hjs hbl] at h
          exact absurd h (by simp)
      | false =>
        rw [scanGo_cons_other hmo hjs] at h
        exact ih _ _ h q arrayId hq hpres

theorem scanGo_archives :
    ∀ (entries : List (FName × FileContent)) (st st' : ScanSt),
      scanGo entries st = some st' →
      ∀ (n : FName) (c : FileContent), (n, c) ∈ entries →
        ∀ arrayId, matchJobOut n = some arrayId →
          hasWalltimeKill (readText c) = true →
          (∀ c', (n, c') ∉ st'.dir) ∧ ∃ bc, (bakName n, bc) ∈ st'.dir := by
  intro entries
  induction entries with
  | nil => intro st st' _ n c hm; exact absurd hm (List.not_mem_nil _)
  | cons hd rest ih =>
    intro st st' h n c hm arrayId hmo hw
    obtain ⟨m, cm⟩ := hd
    rcases List.mem_cons.mp hm with heq | htl
    · have hn : n = m := congrArg Prod.fst heq
      have hc : c = cm := congrArg Prod.snd heq
      subst hn
      subst hc
      rw [scanGo_cons_out_kill hmo hw] at h
      constructor
      · refine scanGo_absent rest _ _ h n arrayId hmo ?_
        intro c' hc'
        rcases appendBak_mem _ hc' with hrm | hbk
        · exact removeFile_name_ne _ hrm rfl
        · simp only at hbk
          have hbn := matchJobOut_bakName hmo
          rw [← hbk, hmo] at hbn
          exact absurd hbn (by simp)
      · refine scanGo_bak_present rest _ _ h n arrayId hmo ?_
        exact appendBak_present _ n (readText c)
    · cases hmo2 : matchJobOut m with
      | some headId =>
        cases hw2 : hasWalltimeKill (readText cm) with
        | true =>
          rw [scanGo_cons_out_kill hmo2 hw2] at h
          exact ih _ _ h n c htl arrayId hmo hw
        | false =>
          rw [scanGo_cons_out_nokill hmo2 hw2] at h
          exact ih _ _ h n c htl arrayId hmo hw
      | none =>
        cases hjs : matchJobJson m with
        | true =>
          cases hbl : batchLen cm with
          | some len =>
            rw [scanGo_cons_json hmo2 hjs hbl] at h
            exact ih _ _ h n c htl arrayId hmo hw
          | none =>
            rw [scanGo_cons_json_bad hmo2 hjs hbl] at h
            exact absurd h (by simp)
        | false =>
          rw [scanGo_cons_other hmo2 hjs] at h
          exact ih _ _ h n c htl arrayId hmo hw

/-- C6 (confirmed): after one resume scan, every log whose contents match the
walltime-kill signature is gone from the directory (its name no longer
present), a `.bak`-suffixed archive for it exists, the archived name can
never again match the log pattern, and a second scan over the resulting
directory succeeds with an empty restart set. -/
theorem pickUp_idempotent (d : Dir) (st : ScanSt)
    (h : pickUpScan d = some st) :
    (∃ st2, pickUpScan st.dir = some st2 ∧ st2.restarts = []) ∧
    (∀ e ∈ d, ∀ arrayId, matchJobOut e.1 = some arrayId →
      hasWalltimeKill (readText e.2) = true →
      (∀ c', (e.1, c') ∉ st.dir) ∧
      (∃ bc, (bakName e.1, bc) ∈ st.dir) ∧
      matchJobOut (bakName e.1) = none) := by
  unfold pickUpScan at h
  cases hsg : scanGo d { restarts := [], nSims := 0, dir := d } with
  | none => rw [hsg] at h; exact absurd h (by simp)
  | some st1 =>
    rw [hsg] at h
    simp only [Option.map_some', Option.some_inj] at h
    have hdir : st.dir = st1.dir := by rw [← h]
    constructor
    · have hok2 : ∀ e ∈ st.dir, matchJobOut e.1 = none → matchJobJson e.1 = true →
          (batchLen e.2).isSome = true := by
        intro e he hnone hjson
        rcases scanGo_dir_mem d _ _ hsg e (by rwa [hdir] at he) with hin | hbk
        · exact scanGo_json_ok d _ _ hsg e hin hnone hjson
        · rcases hbk with ⟨m, aid, hmo, hbk⟩
          rw [hbk, matchJobJson_bakName hmo] at hjson
          exact absurd hjson (by simp)
      obtain ⟨st2', hst2'⟩ :=
        scanGo_isSome st.dir { restarts := [], nSims := 0, dir := st.dir } hok2
      have hnobad := scanGo_no_bad d _ _ hsg (fun e he _ _ => he)
      have hro : restartsOf st.dir = [] := by
        refine List.filterMap_eq_nil_iff.mpr ?_
        intro e he
        cases hmo : matchJobOut e.1 with
        | none => simp [hmo]
        | some aid =>
          have hw := hnobad e (by rwa [hdir] at he) aid hmo
          simp [hmo, hw]
      have hr2 : st2'.restarts = [] := by
        have := scanGo_restarts st.dir _ _ hst2'
        simpa [hro] using this
      refine ⟨{ st2' with
          restarts := List.insertionSort (fun a b => a ≤ b) st2'.restarts }, ?_, ?_⟩
      · unfold pickUpScan
        rw [hst2']
        rfl
      · simp [hr2]
    · intro e he arrayId hmo hw
      have harch := scanGo_archives d _ _ hsg e.1 e.2 (by simpa using he) arrayId hmo hw
      refine ⟨by rw [hdir]; exact harch.1, by rw [hdir]; exact harch.2, ?_⟩
      exact matchJobOut_bakName hmo

/-- C7 (confirmed): the resume scan recovers units-per-job as the maximum
batch length over all persisted job descriptors (never altering the
descriptors themselves), submits the restart as the ascending-sorted
comma-joined task-number list, and follows it with the dependent
post-processing submission. -/
theorem pickUp_recovery (d : Dir) (st : ScanSt) (jid : FName)
    (h : pickUpScan d = some st) :
    st.nSims = maxBatchLen d ∧
    st.restarts = List.insertionSort (fun a b => a ≤ b) (restartsOf d) ∧
    List.Sorted (fun a b => a ≤ b) st.restarts ∧
    st.restarts.Perm (restartsOf d) ∧
    pickUpCalls d jid = some
      [Submission.jobArray st.nSims (commaJoin (st.restarts.map natChars)),
       Submission.postAfter jid] ∧
    (∀ n c, matchJobJson n = true → ((n, c) ∈ st.dir ↔ (n, c) ∈ d)) := by
  have hcalls : pickUpCalls d jid = some
      [Submission.jobArray st.nSims (commaJoin (st.restarts.map natChars)),
       Submission.postAfter jid] := by
    simp [pickUpCalls, h]
  unfold pickUpScan at h
  cases hsg : scanGo d { restarts := [], nSims := 0, dir := d } with
  | none => rw [hsg] at h; exact absurd h (by simp)
  | some st1 =>
    rw [hsg] at h
    simp only [Option.map_some', Option.some_inj] at h
    have hdir : st.dir = st1.dir := by rw [← h]
    have hnsims : st.nSims = st1.nSims := by rw [← h]
    have hrst : st.restarts = List.insertionSort (fun a b => a ≤ b) st1.restarts := by
      rw [← h]
    have h1 := scanGo_nSims d _ _ hsg
    have h2 := scanGo_restarts d _ _ hsg
    simp only [List.nil_append] at h2
    have hsort : st.restarts =
        List.insertionSort (fun a b => a ≤ b) (restartsOf d) := by
      rw [hrst, h2]
    refine ⟨by rw [hnsims, h1]; exact Nat.zero_max _, hsort, ?_, ?_, hcalls, ?_⟩
    · rw [hsort]
      exact List.sorted_insertionSort _ _
    · rw [hsort]
      exact List.perm_insertionSort _ _
    · intro n c hjson
      constructor
      · intro hmem
        rcases scanGo_dir_mem d _ _ hsg (n, c) (by rwa [hdir] at hmem) with hin | hbk
        · exact hin
        · rcases hbk with ⟨m, aid, hmo, hbk⟩
          simp only at hbk
          rw [hbk, matchJobJson_bakName hmo] at hjson
          exact absurd hjson (by simp)
      · intro hmem
        rw [hdir]
        refine scanGo_dir_preserved d _ _ hsg (n, c) hmem
          (matchJobOut_none_of_json hjson) ?_
        intro m aid hmo hbk
        simp only at hbk
        rw [hbk, matchJobJson_bakName hmo] at hjson
        exact absurd hjson (by simp)

/-- Witness for C6: scanning `dEx` archives the timed-out log, and a second
scan over the archived directory yields an empty restart set. -/
theorem pickUp_idempotent_witness :
    pickUpScan dEx = some stEx ∧
    (∃ st2, pickUpScan stEx.dir = some st2 ∧ st2.restarts = []) := by
  have h : pickUpScan dEx = some stEx := by decide
  exact ⟨h, (pickUp_idempotent dEx stEx h).1⟩

/-- Witness for C7: on `dEx` the recovered units-per-job is the maximum
descriptor batch length and the submissions are the comma-joined restart
array followed by the dependent post-processing job. -/
theorem pickUp_recovery_witness :
    pickUpScan dEx = some stEx ∧
    stEx.nSims = maxBatchLen dEx ∧
    pickUpCalls dEx ("12345".toList) = some
      [Submission.jobArray stEx.nSims (commaJoin (stEx.restarts.map natChars)),
       Submission.postAfter ("12345".toList)] := by
  have h : pickUpScan dEx = some stEx := by decide
  exact ⟨h, (pickUp_recovery dEx stEx ("12345".toList) h).1,
    (pickUp_recovery dEx stEx ("12345".toList) h).2.2.2.2.1⟩

end BuildStock
